import Mathlib

/-!
Verification of the sibilant reader/compiler front-end.

This file gives a shallow embedding of the parts of `sibilant/parse.py`,
`sibilant/compiler.py`, `sibilant/compiler/cpython35.py` and
`sibilant/compiler/cpython36.py` that the checked properties concern, and
proves or refutes each property against that embedding.  Python lists become
Lean `List`s, in-place mutation becomes explicit state passing, Python
exceptions become `Except`/`Option` results.
-/

namespace Sibilant

/-- Embeds `_list_unique_append` from compiler.py restricted to its effect on
the list: append `v` only when it is not already present (the returned index
is unused by every caller that matters here). Membership uses equality, the
same as Python's `in`. -/
def list_unique_append (l : List String) (v : String) : List String :=
  if v ∈ l then l else l ++ [v]

theorem mem_list_unique_append_self (l : List String) (v : String) :
    v ∈ list_unique_append l v := by
  unfold list_unique_append
  by_cases h : v ∈ l
  · simp [h]
  · simp [h]

theorem mem_list_unique_append {l : List String} {v w : String}
    (h : w ∈ list_unique_append l v) : w ∈ l ∨ w = v := by
  unfold list_unique_append at h
  by_cases hv : v ∈ l
  · simp [hv] at h
    exact Or.inl h
  · simp [hv] at h
    exact h

theorem mem_list_unique_append_of_mem {l : List String} {v w : String}
    (h : w ∈ l) : w ∈ list_unique_append l v := by
  unfold list_unique_append
  by_cases hv : v ∈ l <;> simp [hv, h]

theorem nodup_list_unique_append {l : List String} (h : l.Nodup) (v : String) :
    (list_unique_append l v).Nodup := by
  unfold list_unique_append
  by_cases hv : v ∈ l
  · simpa [hv]
  · simp [hv, List.nodup_append, h]

/-- The variable-classification state of one `CodeSpace` (compiler.py,
class `CodeSpace.__init__`): the four classification lists plus the name
pool. Only the fields involved in scope analysis are embedded. -/
structure CodeSpace where
  fast_vars : List String
  cell_vars : List String
  free_vars : List String
  global_vars : List String
  names : List String
deriving Repr, DecidableEq, Inhabited

/-- A lexical chain of code spaces: the head is the innermost scope, the tail
its chain of ancestors (the `parent` links of compiler.py). -/
abbrev Chain := List CodeSpace

/-- `CodeSpace.request_cell` of compiler.py, run against a chain whose head
is the space the method is invoked on.  Returns the boolean result and the
updated chain (Python mutates the spaces in place). -/
def request_cell (name : String) : Chain → Bool × Chain
  | [] => (false, [])
  | s :: rest =>
    if name ∈ s.global_vars then
      -- no, we won't provide a cell for a global
      (false, s :: rest)
    else if name ∈ s.fast_vars then
      -- convert the fast var into a cell var for the child namespace
      (true, { s with fast_vars := s.fast_vars.erase name,
                      cell_vars := list_unique_append s.cell_vars name } :: rest)
    else if name ∈ s.free_vars ∨ name ∈ s.cell_vars then
      (true, s :: rest)
    else
      let res := request_cell name rest
      if res.1 then
        (true, { s with free_vars := list_unique_append s.free_vars name } :: res.2)
      else
        (false, s :: res.2)

/-- `CodeSpace.request_var` of compiler.py on a chain whose head is the
requesting scope. -/
def request_var (name : String) : Chain → Chain
  | [] => []
  | s :: rest =>
    if name ∈ s.fast_vars ∨ name ∈ s.free_vars ∨
       name ∈ s.cell_vars ∨ name ∈ s.global_vars then
      s :: rest
    else
      let res := request_cell name rest
      if res.1 then
        { s with free_vars := list_unique_append s.free_vars name } :: res.2
      else
        { s with global_vars := list_unique_append s.global_vars name,
                 names := list_unique_append s.names name } :: res.2

/-- `CodeSpace.declare_var` of compiler.py: unconditionally unique-append the
name to `fast_vars` of the head scope. -/
def declare_var (name : String) : Chain → Chain
  | [] => []
  | s :: rest => { s with fast_vars := list_unique_append s.fast_vars name } :: rest

/-- The classification effect of `CodeSpace.pseudop_define` of compiler.py:
unique-append the name to `global_vars` and to `names` of the head scope
(the pushed `Pseudop.DEFINE` record itself does not affect classification). -/
def pseudop_define (name : String) : Chain → Chain
  | [] => []
  | s :: rest =>
    { s with global_vars := list_unique_append s.global_vars name,
             names := list_unique_append s.names name } :: rest

/-- The effect of `request_cell` on the scope that owns the fast var:
remove from `fast_vars`, unique-append to `cell_vars`. -/
def promote (name : String) (s : CodeSpace) : CodeSpace :=
  { s with fast_vars := s.fast_vars.erase name,
           cell_vars := list_unique_append s.cell_vars name }

/-- The effect of `request_cell`/`request_var` on a scope that threads the
variable through: unique-append to `free_vars`. -/
def add_free (name : String) (s : CodeSpace) : CodeSpace :=
  { s with free_vars := list_unique_append s.free_vars name }

/-- `name` is not classified in any of the four classification lists of `s`. -/
def Unclassified (name : String) (s : CodeSpace) : Prop :=
  name ∉ s.fast_vars ∧ name ∉ s.free_vars ∧
  name ∉ s.cell_vars ∧ name ∉ s.global_vars

instance (name : String) (s : CodeSpace) : Decidable (Unclassified name s) := by
  unfold Unclassified
  infer_instance

theorem request_cell_promotes
    (name : String) (mids : List CodeSpace) (a : CodeSpace) (rest : Chain)
    (hmids : ∀ m ∈ mids, Unclassified name m)
    (ha_fast : name ∈ a.fast_vars)
    (ha_glob : name ∉ a.global_vars) :
    request_cell name (mids ++ a :: rest) =
      (true, mids.map (add_free name) ++ promote name a :: rest) := by
  induction mids with
  | nil =>
      simp only [List.nil_append, List.map_nil]
      unfold request_cell
      simp [ha_glob, ha_fast, promote]
  | cons m ms ih =>
      have hm := hmids m (by simp)
      obtain ⟨h1, h2, h3, h4⟩ := hm
      have ih' := ih (fun x hx => hmids x (by simp [hx]))
      simp only [List.cons_append, List.map_cons]
      unfold request_cell
      simp [h1, h2, h3, h4, ih', add_free]

/-- Core promotion result used by the amended first claim: requesting an
unclassified variable whose nearest classifying ancestor holds it as a fast
var promotes it there and threads it as free through every scope in
between, including the requester. -/
theorem request_var_promotes
    (name : String) (s : CodeSpace) (mids : List CodeSpace) (a : CodeSpace)
    (rest : Chain)
    (hs : Unclassified name s)
    (hmids : ∀ m ∈ mids, Unclassified name m)
    (ha_fast : name ∈ a.fast_vars)
    (ha_glob : name ∉ a.global_vars) :
    request_var name (s :: (mids ++ a :: rest)) =
      add_free name s :: (mids.map (add_free name) ++ promote name a :: rest) := by
  obtain ⟨h1, h2, h3, h4⟩ := hs
  unfold request_var
  simp [h1, h2, h3, h4,
    request_cell_promotes name mids a rest hmids ha_fast ha_glob, add_free]

theorem mem_free_add_free (name : String) (s : CodeSpace) :
    name ∈ (add_free name s).free_vars :=
  mem_list_unique_append_self _ _

theorem not_mem_fast_promote {name : String} {s : CodeSpace}
    (h : s.fast_vars.Nodup) : name ∉ (promote name s).fast_vars := by
  simpa [promote] using h.not_mem_erase

theorem mem_cell_promote (name : String) (s : CodeSpace) :
    name ∈ (promote name s).cell_vars :=
  mem_list_unique_append_self _ _

/-- A code space with no classified variables, matching a fresh
`CodeSpace()` with no args. -/
def empty_space : CodeSpace := ⟨[], [], [], [], []⟩

/-- A code space whose only classified variable is the fast var `"x"`,
matching `CodeSpace(args=["x"])`. -/
def fast_x_space : CodeSpace := ⟨["x"], [], [], [], []⟩

/-- The number of the four classification lists of `s` that contain `n`;
the spec's invariant says this is at most 1 for every name. -/
def class_count (s : CodeSpace) (n : String) : Nat :=
  (if n ∈ s.fast_vars then 1 else 0) + (if n ∈ s.cell_vars then 1 else 0) +
  (if n ∈ s.free_vars then 1 else 0) + (if n ∈ s.global_vars then 1 else 0)

/-- Well-formedness of one scope: duplicate-free fast vars and pairwise
disjoint classification lists. -/
def ScopeOk (s : CodeSpace) : Prop :=
  s.fast_vars.Nodup ∧
  (∀ n ∈ s.fast_vars, n ∉ s.cell_vars ∧ n ∉ s.free_vars ∧ n ∉ s.global_vars) ∧
  (∀ n ∈ s.cell_vars, n ∉ s.free_vars ∧ n ∉ s.global_vars) ∧
  (∀ n ∈ s.free_vars, n ∉ s.global_vars)

instance (s : CodeSpace) : Decidable (ScopeOk s) := by
  unfold ScopeOk
  infer_instance

/-- Well-formedness of every scope of a chain. -/
def ChainOk (ch : Chain) : Prop := ∀ s ∈ ch, ScopeOk s

instance (ch : Chain) : Decidable (ChainOk ch) := by
  unfold ChainOk
  infer_instance

theorem class_count_le_one_of_scope_ok {s : CodeSpace} (h : ScopeOk s)
    (n : String) : class_count s n ≤ 1 := by
  obtain ⟨_, hf, hc, hfr⟩ := h
  unfold class_count
  by_cases h1 : n ∈ s.fast_vars
  · obtain ⟨a, b, c⟩ := hf n h1
    simp [h1, a, b, c]
  · by_cases h2 : n ∈ s.cell_vars
    · obtain ⟨a, b⟩ := hc n h2
      simp [h1, h2, a, b]
    · by_cases h3 : n ∈ s.free_vars
      · simp [h1, h2, h3, hfr n h3]
      · by_cases h4 : n ∈ s.global_vars <;> simp [h1, h2, h3, h4]

/-- The scope-analysis operations a `CodeSpace` is subjected to during
compilation, acting on the head scope of a chain. -/
inductive ScopeOp where
  | req_var (name : String)
  | req_cell (name : String)
  | decl_var (name : String)
  | defvar (name : String)
deriving Repr, DecidableEq

/-- Apply one scope-analysis operation to a chain. `defvar` is
`pseudop_define`, restricted to its classification effect. -/
def apply_op : ScopeOp → Chain → Chain
  | .req_var n, ch => request_var n ch
  | .req_cell n, ch => (request_cell n ch).2
  | .decl_var n, ch => declare_var n ch
  | .defvar n, ch => pseudop_define n ch

/-- Apply a sequence of scope-analysis operations, front to back. -/
def apply_ops : List ScopeOp → Chain → Chain
  | [], ch => ch
  | op :: ops, ch => apply_ops ops (apply_op op ch)

/-- The side condition under which an operation preserves the at-most-one
classification invariant: `declare_var` must not hit a name already
classified cell/free/global, and `pseudop_define` must not hit a name
already classified fast/cell/free.  `request_var` and `request_cell` need
no side condition. -/
def op_guard : ScopeOp → Chain → Prop
  | .decl_var n, s :: _ => n ∉ s.cell_vars ∧ n ∉ s.free_vars ∧ n ∉ s.global_vars
  | .defvar n, s :: _ => n ∉ s.fast_vars ∧ n ∉ s.cell_vars ∧ n ∉ s.free_vars
  | _, _ => True

instance (op : ScopeOp) (ch : Chain) : Decidable (op_guard op ch) := by
  cases op <;> cases ch <;> unfold op_guard <;> infer_instance

/-- Every operation of the sequence satisfies its guard in the state in
which it is applied. -/
def GuardsOk : List ScopeOp → Chain → Prop
  | [], _ => True
  | op :: ops, ch => op_guard op ch ∧ GuardsOk ops (apply_op op ch)

def GuardsOk.dec : (ops : List ScopeOp) → (ch : Chain) →
    Decidable (GuardsOk ops ch)
  | [], _ => isTrue trivial
  | op :: ops, ch =>
      haveI := GuardsOk.dec ops (apply_op op ch)
      inferInstanceAs (Decidable (op_guard op ch ∧ GuardsOk ops (apply_op op ch)))

instance (ops : List ScopeOp) (ch : Chain) : Decidable (GuardsOk ops ch) :=
  GuardsOk.dec ops ch

theorem request_cell_preserves (name : String) :
    ∀ ch : Chain, ChainOk ch → ChainOk (request_cell name ch).2 := by
  intro ch
  induction ch with
  | nil => intro h; exact h
  | cons s rest ih =>
      intro hok
      have hs : ScopeOk s := hok s (by simp)
      have hrest : ChainOk rest := fun x hx => hok x (by simp [hx])
      unfold request_cell
      by_cases hg : name ∈ s.global_vars
      · simpa [hg] using hok
      · by_cases hf : name ∈ s.fast_vars
        · simp only [hg, hf, if_true, if_false, ite_true, ite_false]
          intro x hx
          rcases List.mem_cons.mp hx with hx | hx
          · subst hx
            obtain ⟨hnd, hfd, hcd, hfrd⟩ := hs
            obtain ⟨nc, nfr, ng⟩ := hfd name hf
            refine ⟨hnd.erase name, ?_, ?_, ?_⟩
            · intro m hm
              have hm' : m ∈ s.fast_vars := List.mem_of_mem_erase hm
              have hne : m ≠ name := by
                intro h
                subst h
                exact (hnd.not_mem_erase) hm
              obtain ⟨a, b, c⟩ := hfd m hm'
              refine ⟨?_, b, c⟩
              intro hmem
              rcases mem_list_unique_append hmem with h | h
              · exact a h
              · exact hne h
            · intro m hm
              rcases mem_list_unique_append hm with h | h
              · exact hcd m h
              · subst h
                exact ⟨nfr, ng⟩
            · exact hfrd
          · exact hrest x hx
        · by_cases hfc : name ∈ s.free_vars ∨ name ∈ s.cell_vars
          · simpa [hg, hf, hfc] using hok
          · have hfr : name ∉ s.free_vars := fun h => hfc (Or.inl h)
            have hc : name ∉ s.cell_vars := fun h => hfc (Or.inr h)
            simp only [hg, hf, hfc, if_false, ite_false]
            by_cases hres : (request_cell name rest).1 = true
            · simp only [hres, if_true, ite_true]
              intro x hx
              rcases List.mem_cons.mp hx with hx | hx
              · subst hx
                obtain ⟨hnd, hfd, hcd, hfrd⟩ := hs
                refine ⟨hnd, ?_, ?_, ?_⟩
                · intro m hm
                  obtain ⟨a, b, c⟩ := hfd m hm
                  refine ⟨a, ?_, c⟩
                  intro hmem
                  rcases mem_list_unique_append hmem with h | h
                  · exact b h
                  · subst h
                    exact hf hm
                · intro m hm
                  obtain ⟨a, b⟩ := hcd m hm
                  refine ⟨?_, b⟩
                  intro hmem
                  rcases mem_list_unique_append hmem with h | h
                  · exact a h
                  · subst h
                    exact hc hm
                · intro m hm
                  rcases mem_list_unique_append hm with h | h
                  · exact hfrd m h
                  · subst h
                    exact hg
              · exact ih hrest x hx
            · simp only [hres, if_false, ite_false]
              intro x hx
              rcases List.mem_cons.mp hx with hx | hx
              · subst hx
                exact hs
              · exact ih hrest x hx

theorem request_var_preserves (name : String) (ch : Chain)
    (hok : ChainOk ch) : ChainOk (request_var name ch) := by
  cases ch with
  | nil => exact hok
  | cons s rest =>
      have hs : ScopeOk s := hok s (by simp)
      have hrest : ChainOk rest := fun x hx => hok x (by simp [hx])
      unfold request_var
      by_cases hcl : name ∈ s.fast_vars ∨ name ∈ s.free_vars ∨
          name ∈ s.cell_vars ∨ name ∈ s.global_vars
      · simpa [hcl] using hok
      · push_neg at hcl
        obtain ⟨h1, h2, h3, h4⟩ := hcl
        have hrest' := request_cell_preserves name rest hrest
        simp only [h1, h2, h3, h4, or_self, or_false, false_or, if_false,
          ite_false]
        by_cases hres : (request_cell name rest).1 = true
        · simp only [hres, if_true, ite_true]
          intro x hx
          rcases List.mem_cons.mp hx with hx | hx
          · subst hx
            obtain ⟨hnd, hfd, hcd, hfrd⟩ := hs
            refine ⟨hnd, ?_, ?_, ?_⟩
            · intro m hm
              obtain ⟨a, b, c⟩ := hfd m hm
              refine ⟨a, ?_, c⟩
              intro hmem
              rcases mem_list_unique_append hmem with h | h
              · exact b h
              · subst h
                exact h1 hm
            · intro m hm
              obtain ⟨a, b⟩ := hcd m hm
              refine ⟨?_, b⟩
              intro hmem
              rcases mem_list_unique_append hmem with h | h
              · exact a h
              · subst h
                exact h3 hm
            · intro m hm
              rcases mem_list_unique_append hm with h | h
              · exact hfrd m h
              · subst h
                exact h4
          · exact hrest' x hx
        · simp only [hres, if_false, ite_false]
          intro x hx
          rcases List.mem_cons.mp hx with hx | hx
          · subst hx
            obtain ⟨hnd, hfd, hcd, hfrd⟩ := hs
            refine ⟨hnd, ?_, ?_, ?_⟩
            · intro m hm
              obtain ⟨a, b, c⟩ := hfd m hm
              refine ⟨a, b, ?_⟩
              intro hmem
              rcases mem_list_unique_append hmem with h | h
              · exact c h
              · subst h
                exact h1 hm
            · intro m hm
              obtain ⟨a, b⟩ := hcd m hm
              refine ⟨a, ?_⟩
              intro hmem
              rcases mem_list_unique_append hmem with h | h
              · exact b h
              · subst h
                exact h3 hm
            · intro m hm
              intro hmem
              rcases mem_list_unique_append hmem with h | h
              · exact hfrd m hm h
              · subst h
                exact h2 hm
          · exact hrest' x hx

theorem declare_var_preserves (name : String) (ch : Chain)
    (hok : ChainOk ch) (hg : op_guard (.decl_var name) ch) :
    ChainOk (declare_var name ch) := by
  cases ch with
  | nil => exact hok
  | cons s rest =>
      have hs : ScopeOk s := hok s (by simp)
      obtain ⟨g1, g2, g3⟩ := hg
      unfold declare_var
      intro x hx
      rcases List.mem_cons.mp hx with hx | hx
      · subst hx
        obtain ⟨hnd, hfd, hcd, hfrd⟩ := hs
        refine ⟨nodup_list_unique_append hnd name, ?_, hcd, hfrd⟩
        intro m hm
        rcases mem_list_unique_append hm with h | h
        · exact hfd m h
        · subst h
          exact ⟨g1, g2, g3⟩
      · exact hok x (by simp [hx])

theorem pseudop_define_preserves (name : String) (ch : Chain)
    (hok : ChainOk ch) (hg : op_guard (.defvar name) ch) :
    ChainOk (pseudop_define name ch) := by
  cases ch with
  | nil => exact hok
  | cons s rest =>
      have hs : ScopeOk s := hok s (by simp)
      obtain ⟨g1, g2, g3⟩ := hg
      unfold pseudop_define
      intro x hx
      rcases List.mem_cons.mp hx with hx | hx
      · subst hx
        obtain ⟨hnd, hfd, hcd, hfrd⟩ := hs
        refine ⟨hnd, ?_, ?_, ?_⟩
        · intro m hm
          obtain ⟨a, b, c⟩ := hfd m hm
          refine ⟨a, b, ?_⟩
          intro hmem
          rcases mem_list_unique_append hmem with h | h
          · exact c h
          · subst h
            exact g1 hm
        · intro m hm
          obtain ⟨a, b⟩ := hcd m hm
          refine ⟨a, ?_⟩
          intro hmem
          rcases mem_list_unique_append hmem with h | h
          · exact b h
          · subst h
            exact g2 hm
        · intro m hm hmem
          rcases mem_list_unique_append hmem with h | h
          · exact hfrd m hm h
          · subst h
            exact g3 hm
      · exact hok x (by simp [hx])

theorem apply_op_preserves (op : ScopeOp) (ch : Chain)
    (hok : ChainOk ch) (hg : op_guard op ch) : ChainOk (apply_op op ch) := by
  cases op with
  | req_var n => exact request_var_preserves n ch hok
  | req_cell n => exact request_cell_preserves n ch hok
  | decl_var n => exact declare_var_preserves n ch hok hg
  | defvar n => exact pseudop_define_preserves n ch hok hg

/-- C1 (amended): if a descendant scope requests `n` while `n` is
unclassified in the requester and in every scope strictly between it and
the nearest classifying ancestor, and that ancestor holds `n` in its
(duplicate-free) `fast_vars` and not in its `global_vars`, then after the
request `n` has been removed from the ancestor's `fast_vars` and added to
its `cell_vars`, and `n` is in the `free_vars` of the requester and of
every intermediate scope; scopes above the ancestor are untouched. -/
theorem C1_promotion_theorem
    (name : String) (s : CodeSpace) (mids : List CodeSpace) (a : CodeSpace)
    (rest : Chain)
    (hs : Unclassified name s)
    (hmids : ∀ m ∈ mids, Unclassified name m)
    (ha_fast : name ∈ a.fast_vars)
    (ha_glob : name ∉ a.global_vars)
    (ha_nodup : a.fast_vars.Nodup) :
    request_var name (s :: (mids ++ a :: rest)) =
      add_free name s :: (mids.map (add_free name) ++ promote name a :: rest) ∧
    name ∉ (promote name a).fast_vars ∧
    name ∈ (promote name a).cell_vars ∧
    name ∈ (add_free name s).free_vars ∧
    (∀ m ∈ mids.map (add_free name), name ∈ m.free_vars) := by
  refine ⟨request_var_promotes name s mids a rest hs hmids ha_fast ha_glob,
    not_mem_fast_promote ha_nodup, mem_cell_promote name a,
    mem_free_add_free name s, ?_⟩
  intro m hm
  rcases List.mem_map.mp hm with ⟨x, _, rfl⟩
  exact mem_free_add_free name x

/-- C1 witness: a chain of three scopes (requester, one intermediate, the
owner of fast var "x") in which the promotion theorem applies. -/
theorem C1_promotion_theorem_witness :
    request_var "x" (empty_space :: ([empty_space] ++ fast_x_space :: [])) =
      add_free "x" empty_space ::
        ([empty_space].map (add_free "x") ++ promote "x" fast_x_space :: []) ∧
    "x" ∉ (promote "x" fast_x_space).fast_vars ∧
    "x" ∈ (promote "x" fast_x_space).cell_vars ∧
    "x" ∈ (add_free "x" empty_space).free_vars ∧
    (∀ m ∈ [empty_space].map (add_free "x"), "x" ∈ m.free_vars) :=
  C1_promotion_theorem "x" empty_space [empty_space] fast_x_space []
    (by decide) (by decide) (by decide) (by decide) (by decide)

/-- C1 counterexample: the claim as stated fails when the requesting scope
itself already classifies `n` (shadowing). Here both the requester and its
ancestor hold "x" in `fast_vars`; the request leaves the whole chain
unchanged, so the ancestor's "x" is neither removed from its `fast_vars`
nor added to its `cell_vars`, and "x" never appears in the requester's
`free_vars` — contradicting the claim, which requires promotion for every
request with some ancestor holding `n` fast. -/
theorem C1_counterexample :
    request_var "x" [fast_x_space, fast_x_space] =
      [fast_x_space, fast_x_space] ∧
    "x" ∈ fast_x_space.fast_vars ∧
    "x" ∉ fast_x_space.cell_vars ∧
    "x" ∉ fast_x_space.free_vars := by
  decide

/-- C2 (amended): starting from a chain whose scopes are well-formed
(pairwise-disjoint classification lists, duplicate-free fast vars), any
sequence of `request_var`, `request_cell`, `declare_var` and
`pseudop_define` operations whose guards hold — `declare_var` is not
applied to a name already classified cell/free/global and
`pseudop_define` is not applied to a name already classified
fast/cell/free — leaves every scope well-formed, so each name appears in
at most one of the four classification lists. -/
theorem C2_classification_invariant
    (ops : List ScopeOp) (ch : Chain)
    (hok : ChainOk ch) (hg : GuardsOk ops ch) :
    ChainOk (apply_ops ops ch) ∧
    ∀ s ∈ apply_ops ops ch, ∀ n, class_count s n ≤ 1 := by
  induction ops generalizing ch with
  | nil =>
      exact ⟨hok, fun s hs n => class_count_le_one_of_scope_ok (hok s hs) n⟩
  | cons op ops ih =>
      obtain ⟨hg1, hg2⟩ := hg
      exact ih (apply_op op ch) (apply_op_preserves op ch hok hg1) hg2

/-- C2 witness: a concrete operation sequence (declare a fast var, read a
global, define another global, promote via a child request) on a
two-scope chain. -/
theorem C2_classification_invariant_witness :
    (ChainOk (apply_ops
        [ScopeOp.decl_var "x", ScopeOp.req_var "y", ScopeOp.defvar "z",
         ScopeOp.req_cell "w"]
        [fast_x_space, { empty_space with fast_vars := ["w"] }]) ∧
     ∀ s ∈ apply_ops
        [ScopeOp.decl_var "x", ScopeOp.req_var "y", ScopeOp.defvar "z",
         ScopeOp.req_cell "w"]
        [fast_x_space, { empty_space with fast_vars := ["w"] }],
       ∀ n, class_count s n ≤ 1) :=
  C2_classification_invariant _ _ (by decide) (by decide)

/-- C2 counterexample: `pseudop_define` on a name already classified as
fast (a formal argument) leaves the name in both `fast_vars` and
`global_vars` — two of the four sets — refuting the claim as stated for
the sequence `declare_var "x"; pseudop_define "x"`. -/
theorem C2_counterexample :
    2 ≤ class_count
      ((apply_ops [ScopeOp.decl_var "x", ScopeOp.defvar "x"]
        [empty_space]).headI) "x" := by
  decide

/-! ## Stack-depth analysis: `max_stack` (compiler.py) -/

/-- The pseudo-operations walked by `max_stack`, with the argument payload
the walk inspects (`LAMBDA` only contributes `len(code.co_freevars)`).
Labels are the generated `label_NNNN` names, embedded as numbers. -/
inductive PseudopIns where
  | position (line col : Nat)
  | call (argc : Nat)
  | const
  | get_var
  | dup
  | set_var
  | define
  | pop
  | lambda_op (nfree : Nat)
  | ret_val
  | jump (l : Nat)
  | label (l : Nat)
  | pop_jump_if_true (l : Nat)
  | pop_jump_if_false (l : Nat)
  | call_varargs (argc : Nat)
  | build_tuple (count : Nat)
  | build_tuple_unpack (count : Nat)
  | setup_except (l : Nat)
  | setup_finally (l : Nat)
  | pop_block
  | pop_except
  | exception_match
deriving Repr, DecidableEq

/-- The walker state of `max_stack`: running maximum, current virtual
depth, and the per-label recorded depths (the `at_label` dict; newest
binding first, lookup takes the newest). -/
structure StackState where
  maxc : Int
  stac : Int
  at_label : List (Nat × Int)
deriving Repr, DecidableEq

/-- The nested `push` of `max_stack`. -/
def StackState.push (st : StackState) (k : Int) : StackState :=
  let stac := st.stac + k
  { st with stac := stac,
            maxc := if stac > st.maxc then stac else st.maxc }

/-- The nested `pop` of `max_stack`; `none` models its failing
`assert(stac >= 0)`. -/
def StackState.pop (st : StackState) (k : Int) : Option StackState :=
  let stac := st.stac - k
  if 0 ≤ stac then some { st with stac := stac } else none

/-- Record the current depth for a label (`at_label[args[0]] = stac`). -/
def StackState.record (st : StackState) (l : Nat) : StackState :=
  { st with at_label := (l, st.stac) :: st.at_label }

/-- One iteration of the `max_stack` walk over a pseudo-op. -/
def max_stack_step (st : StackState) : PseudopIns → Option StackState
  | .position _ _ => some st
  | .call n => st.pop n
  | .const => some (st.push 1)
  | .get_var => some (st.push 1)
  | .dup => some (st.push 1)
  | .set_var => st.pop 1
  | .define => st.pop 1
  | .pop => st.pop 1
  | .lambda_op nfree => do
      let stA ← if nfree = 0 then some st else ((st.push nfree).pop nfree)
      let stB ← (stA.push 2).pop 2
      some (stB.push 1)
  | .ret_val => st.pop 1
  | .jump l => some (st.record l)
  | .label l => some { st with stac := (st.at_label.lookup l).getD st.stac }
  | .pop_jump_if_true l => (st.pop 1).map (fun st' => st'.record l)
  | .pop_jump_if_false l => (st.pop 1).map (fun st' => st'.record l)
  | .call_varargs _ => st.pop 1
  | .build_tuple n => (st.pop n).map (fun st' => st'.push 1)
  | .build_tuple_unpack n => (st.pop n).map (fun st' => st'.push 1)
  | .setup_except _ => some st
  | .setup_finally _ => some st
  | .pop_block => some st
  | .pop_except => some st
  | .exception_match =>
      -- the source branch is a bare `pass` (its pop()/push() are
      -- commented out), so the depth is untouched
      some st

/-- Run the walk over a pseudo-op buffer. -/
def max_stack_run (st : StackState) : List PseudopIns → Option StackState
  | [] => some st
  | op :: ops => (max_stack_step st op).bind (fun st' => max_stack_run st' ops)

/-- The walker's initial state. -/
def init_stack_state : StackState := ⟨0, 0, []⟩

/-- `max_stack(pseudops)` of compiler.py: walk the buffer; `none` models a
failing assertion (negative depth inside `pop`, or the final
`assert(stac == 0)`). -/
def max_stack (ops : List PseudopIns) : Option Int :=
  (max_stack_run init_stack_state ops).bind
    (fun st => if st.stac = 0 then some st.maxc else none)

/-- All depths a state can expose are non-negative: the current depth and
every recorded label depth. -/
def StackStateOk (st : StackState) : Prop :=
  0 ≤ st.stac ∧ ∀ p ∈ st.at_label, 0 ≤ p.2

theorem push_stac (st : StackState) (k : Int) : (st.push k).stac = st.stac + k :=
  rfl

theorem lookup_mem_pairs {l : List (Nat × Int)} {k : Nat} {v : Int}
    (h : l.lookup k = some v) : (k, v) ∈ l := by
  induction l with
  | nil => simp [List.lookup] at h
  | cons p rest ih =>
      rcases p with ⟨a, b⟩
      by_cases hk : k = a
      · subst hk
        simp [List.lookup] at h
        simp [h]
      · have hba : (k == a) = false := by simp [hk]
        simp [List.lookup, hba] at h
        simp [ih h]

theorem pop_stac {st st' : StackState} {k : Int} (h : st.pop k = some st') :
    st'.stac = st.stac - k ∧ 0 ≤ st'.stac := by
  unfold StackState.pop at h
  by_cases hk : 0 ≤ st.stac - k
  · simp [hk] at h
    subst h
    exact ⟨rfl, hk⟩
  · simp [hk] at h

theorem pop_at_label {st st' : StackState} {k : Int} (h : st.pop k = some st') :
    st'.at_label = st.at_label := by
  unfold StackState.pop at h
  by_cases hk : 0 ≤ st.stac - k
  · simp [hk] at h
    subst h
    rfl
  · simp [hk] at h

theorem max_stack_step_ok {st st' : StackState} {op : PseudopIns}
    (hok : StackStateOk st) (h : max_stack_step st op = some st') :
    StackStateOk st' := by
  obtain ⟨h1, h2⟩ := hok
  cases op with
  | position l c =>
      simp [max_stack_step] at h
      subst h
      exact ⟨h1, h2⟩
  | call n =>
      simp only [max_stack_step] at h
      obtain ⟨_, hge⟩ := pop_stac h
      exact ⟨hge, (pop_at_label h) ▸ h2⟩
  | const =>
      simp [max_stack_step] at h
      subst h
      exact ⟨by simp [push_stac]; omega, h2⟩
  | get_var =>
      simp [max_stack_step] at h
      subst h
      exact ⟨by simp [push_stac]; omega, h2⟩
  | dup =>
      simp [max_stack_step] at h
      subst h
      exact ⟨by simp [push_stac]; omega, h2⟩
  | set_var =>
      simp only [max_stack_step] at h
      obtain ⟨_, hge⟩ := pop_stac h
      exact ⟨hge, (pop_at_label h) ▸ h2⟩
  | define =>
      simp only [max_stack_step] at h
      obtain ⟨_, hge⟩ := pop_stac h
      exact ⟨hge, (pop_at_label h) ▸ h2⟩
  | pop =>
      simp only [max_stack_step] at h
      obtain ⟨_, hge⟩ := pop_stac h
      exact ⟨hge, (pop_at_label h) ▸ h2⟩
  | lambda_op nfree =>
      simp only [max_stack_step, Option.bind_eq_bind] at h
      by_cases hn : nfree = 0
      · simp only [hn, if_true, ite_true, Option.some_bind] at h
        rcases Option.bind_eq_some.mp h with ⟨stB, hB, hlast⟩
        obtain ⟨hBs, hBge⟩ := pop_stac hB
        cases hlast
        constructor
        · simp [push_stac]
          omega
        · have := pop_at_label hB
          simp [StackState.push] at this ⊢
          rw [this]
          exact fun a b hb => h2 (a, b) hb
      · simp only [hn, if_false, ite_false] at h
        rcases Option.bind_eq_some.mp h with ⟨stA, hA, hrest⟩
        rcases Option.bind_eq_some.mp hrest with ⟨stB, hB, hlast⟩
        obtain ⟨hAs, hAge⟩ := pop_stac hA
        obtain ⟨hBs, hBge⟩ := pop_stac hB
        cases hlast
        constructor
        · simp [push_stac]
          omega
        · have e1 := pop_at_label hA
          have e2 := pop_at_label hB
          simp [StackState.push] at e1 e2 ⊢
          rw [e2, e1]
          exact fun a b hb => h2 (a, b) hb
  | ret_val =>
      simp only [max_stack_step] at h
      obtain ⟨_, hge⟩ := pop_stac h
      exact ⟨hge, (pop_at_label h) ▸ h2⟩
  | jump l =>
      simp [max_stack_step, StackState.record] at h
      subst h
      refine ⟨h1, ?_⟩
      intro p hp
      rcases List.mem_cons.mp hp with hp | hp
      · subst hp
        exact h1
      · exact h2 p hp
  | label l =>
      simp [max_stack_step] at h
      subst h
      constructor
      · rcases hl : st.at_label.lookup l with _ | v
        · simpa [hl] using h1
        · have := h2 (l, v) (lookup_mem_pairs hl)
          simpa [hl] using this
      · exact h2
  | pop_jump_if_true l =>
      simp only [max_stack_step, Option.map_eq_map] at h
      rcases Option.map_eq_some.mp h with ⟨stm, hm, rfl⟩
      obtain ⟨_, hge⟩ := pop_stac hm
      refine ⟨hge, ?_⟩
      intro p hp
      rcases List.mem_cons.mp hp with hp | hp
      · subst hp
        exact hge
      · exact h2 p ((pop_at_label hm) ▸ hp)
  | pop_jump_if_false l =>
      simp only [max_stack_step, Option.map_eq_map] at h
      rcases Option.map_eq_some.mp h with ⟨stm, hm, rfl⟩
      obtain ⟨_, hge⟩ := pop_stac hm
      refine ⟨hge, ?_⟩
      intro p hp
      rcases List.mem_cons.mp hp with hp | hp
      · subst hp
        exact hge
      · exact h2 p ((pop_at_label hm) ▸ hp)
  | call_varargs n =>
      simp only [max_stack_step] at h
      obtain ⟨_, hge⟩ := pop_stac h
      exact ⟨hge, (pop_at_label h) ▸ h2⟩
  | build_tuple n =>
      simp only [max_stack_step, Option.map_eq_map] at h
      rcases Option.map_eq_some.mp h with ⟨stm, hm, rfl⟩
      obtain ⟨_, hge⟩ := pop_stac hm
      constructor
      · simp [push_stac]
        omega
      · have := pop_at_label hm
        simp [StackState.push]
        rw [this]
        exact fun a b hb => h2 (a, b) hb
  | build_tuple_unpack n =>
      simp only [max_stack_step, Option.map_eq_map] at h
      rcases Option.map_eq_some.mp h with ⟨stm, hm, rfl⟩
      obtain ⟨_, hge⟩ := pop_stac hm
      constructor
      · simp [push_stac]
        omega
      · have := pop_at_label hm
        simp [StackState.push]
        rw [this]
        exact fun a b hb => h2 (a, b) hb
  | setup_except l =>
      simp [max_stack_step] at h
      subst h
      exact ⟨h1, h2⟩
  | setup_finally l =>
      simp [max_stack_step] at h
      subst h
      exact ⟨h1, h2⟩
  | pop_block =>
      simp [max_stack_step] at h
      subst h
      exact ⟨h1, h2⟩
  | pop_except =>
      simp [max_stack_step] at h
      subst h
      exact ⟨h1, h2⟩
  | exception_match =>
      simp [max_stack_step] at h
      subst h
      exact ⟨h1, h2⟩

theorem max_stack_run_append (st : StackState) (pre post : List PseudopIns) :
    max_stack_run st (pre ++ post) =
      (max_stack_run st pre).bind (fun stm => max_stack_run stm post) := by
  induction pre generalizing st with
  | nil => simp [max_stack_run]
  | cons op ops ih =>
      simp only [List.cons_append, max_stack_run]
      cases h : max_stack_step st op with
      | none => simp
      | some st' => simp [ih st']

theorem max_stack_run_ok {st st' : StackState} {ops : List PseudopIns}
    (hok : StackStateOk st) (h : max_stack_run st ops = some st') :
    StackStateOk st' := by
  induction ops generalizing st with
  | nil =>
      simp [max_stack_run] at h
      subst h
      exact hok
  | cons op ops ih =>
      simp only [max_stack_run] at h
      rcases Option.bind_eq_some.mp h with ⟨stm, hm, hrest⟩
      exact ih (max_stack_step_ok hok hm) hrest

/-- C3 (amended): `max_stack` tracks a virtual stack whose per-op deltas
are: `CALL k` is −k; each of POP, SET_VAR, DEFINE, RET_VAL,
POP_JUMP_IF_TRUE/FALSE and CALL_VARARGS is −1; EXCEPTION_MATCH is 0 (its
source branch is a bare `pass`, not −1 as the claim states); whenever
`max_stack` succeeds, the tracked depth is non-negative at every point of
the walk and the terminal depth is zero. -/
theorem C3_max_stack_theorem (ops : List PseudopIns) (m : Int)
    (h : max_stack ops = some m) :
    (∀ st st' : StackState, ∀ k,
      max_stack_step st (.call k) = some st' → st'.stac = st.stac - k) ∧
    (∀ st st' : StackState, ∀ l argc,
      (max_stack_step st .pop = some st' → st'.stac = st.stac - 1) ∧
      (max_stack_step st .set_var = some st' → st'.stac = st.stac - 1) ∧
      (max_stack_step st .define = some st' → st'.stac = st.stac - 1) ∧
      (max_stack_step st .ret_val = some st' → st'.stac = st.stac - 1) ∧
      (max_stack_step st (.pop_jump_if_true l) = some st' →
        st'.stac = st.stac - 1) ∧
      (max_stack_step st (.pop_jump_if_false l) = some st' →
        st'.stac = st.stac - 1) ∧
      (max_stack_step st (.call_varargs argc) = some st' →
        st'.stac = st.stac - 1)) ∧
    (∀ st : StackState, max_stack_step st .exception_match = some st) ∧
    (∀ pre post, ops = pre ++ post →
      ∃ stm, max_stack_run init_stack_state pre = some stm ∧ 0 ≤ stm.stac) ∧
    (∃ stf, max_stack_run init_stack_state ops = some stf ∧
      stf.stac = 0 ∧ stf.maxc = m) := by
  have hrun : ∃ stf, max_stack_run init_stack_state ops = some stf ∧
      stf.stac = 0 ∧ stf.maxc = m := by
    unfold max_stack at h
    rcases Option.bind_eq_some.mp h with ⟨stf, hf, hcheck⟩
    by_cases hz : stf.stac = 0
    · refine ⟨stf, hf, hz, ?_⟩
      simp [hz] at hcheck
      exact hcheck
    · simp [hz] at hcheck
  refine ⟨?_, ?_, ?_, ?_, hrun⟩
  · intro st st' k hs
    simp only [max_stack_step] at hs
    exact (pop_stac hs).1
  · intro st st' l argc
    refine ⟨?_, ?_, ?_, ?_, ?_, ?_, ?_⟩ <;> intro hs
    · exact (pop_stac (by simpa [max_stack_step] using hs)).1
    · exact (pop_stac (by simpa [max_stack_step] using hs)).1
    · exact (pop_stac (by simpa [max_stack_step] using hs)).1
    · exact (pop_stac (by simpa [max_stack_step] using hs)).1
    · simp only [max_stack_step, Option.map_eq_map] at hs
      rcases Option.map_eq_some.mp hs with ⟨stm, hm, rfl⟩
      exact (pop_stac hm).1
    · simp only [max_stack_step, Option.map_eq_map] at hs
      rcases Option.map_eq_some.mp hs with ⟨stm, hm, rfl⟩
      exact (pop_stac hm).1
    · exact (pop_stac (by simpa [max_stack_step] using hs)).1
  · intro st
    rfl
  · intro pre post hsplit
    obtain ⟨stf, hf, _, _⟩ := hrun
    rw [hsplit, max_stack_run_append] at hf
    rcases Option.bind_eq_some.mp hf with ⟨stm, hm, _⟩
    have hok : StackStateOk stm :=
      max_stack_run_ok (by constructor <;> simp [init_stack_state]) hm
    exact ⟨stm, hm, hok.1⟩

/-- C3 witness: a small buffer (the body of a two-armed call) on which
`max_stack` succeeds with maximum 3. -/
theorem C3_max_stack_theorem_witness :
    (∀ st st' : StackState, ∀ k,
      max_stack_step st (.call k) = some st' → st'.stac = st.stac - k) ∧
    (∀ st st' : StackState, ∀ l argc,
      (max_stack_step st .pop = some st' → st'.stac = st.stac - 1) ∧
      (max_stack_step st .set_var = some st' → st'.stac = st.stac - 1) ∧
      (max_stack_step st .define = some st' → st'.stac = st.stac - 1) ∧
      (max_stack_step st .ret_val = some st' → st'.stac = st.stac - 1) ∧
      (max_stack_step st (.pop_jump_if_true l) = some st' →
        st'.stac = st.stac - 1) ∧
      (max_stack_step st (.pop_jump_if_false l) = some st' →
        st'.stac = st.stac - 1) ∧
      (max_stack_step st (.call_varargs argc) = some st' →
        st'.stac = st.stac - 1)) ∧
    (∀ st : StackState, max_stack_step st .exception_match = some st) ∧
    (∀ pre post,
      ([PseudopIns.get_var, .const, .const, .call 2, .ret_val] :
          List PseudopIns) = pre ++ post →
      ∃ stm, max_stack_run init_stack_state pre = some stm ∧ 0 ≤ stm.stac) ∧
    (∃ stf, max_stack_run init_stack_state
        [PseudopIns.get_var, .const, .const, .call 2, .ret_val] = some stf ∧
      stf.stac = 0 ∧ stf.maxc = 3) :=
  C3_max_stack_theorem [.get_var, .const, .const, .call 2, .ret_val] 3
    (by decide)

/-- C3 counterexample: the claim assigns EXCEPTION_MATCH a delta of −1,
but the walker leaves the state — in particular the depth 1 here —
completely unchanged (delta 0); consequently the buffer
`[CONST, EXCEPTION_MATCH, RET_VAL]` closes at zero and succeeds, which
under a −1 delta would end at −1 and fail the assertion. -/
theorem C3_counterexample :
    max_stack_step ⟨1, 1, []⟩ .exception_match = some ⟨1, 1, []⟩ ∧
    (max_stack_step ⟨1, 1, []⟩ .exception_match).map
        (fun st => st.stac) ≠ some (1 - 1 : Int) ∧
    max_stack [PseudopIns.const, .exception_match, .ret_val] = some 1 := by
  refine ⟨rfl, by decide, by decide⟩

/-! ## Constant pool (base `CodeSpace`) -/

/-- Constant values a base `CodeSpace` pools, restricted to the kinds the
tenth claim exercises. -/
inductive PyConst where
  | none_v
  | bool_v (b : Bool)
  | int_v (n : Int)
  | str_v (s : String)
deriving Repr, DecidableEq

/-- The numeric value of a constant under Python's numeric tower, where
`True == 1` and `False == 0`. -/
def numeric_val : PyConst → Option Int
  | .bool_v b => some (if b then 1 else 0)
  | .int_v n => some n
  | _ => none

/-- Python `==` on the pooled constants: `None` only equals `None`,
strings compare by value, and booleans/integers compare by numeric value
(so `True == 1` and `False == 0`). -/
def py_eq (a b : PyConst) : Bool :=
  match a, b with
  | .none_v, .none_v => true
  | .str_v s, .str_v t => s == t
  | a, b =>
      match numeric_val a, numeric_val b with
      | some x, some y => x == y
      | _, _ => false

theorem py_eq_iff (a b : PyConst) :
    py_eq a b = true ↔
      a = b ∨ ∃ x, numeric_val a = some x ∧ numeric_val b = some x := by
  cases a <;> cases b <;> simp [py_eq, numeric_val] <;> aesop

theorem py_eq_refl (a : PyConst) : py_eq a a = true := by
  rw [py_eq_iff]
  exact Or.inl rfl

theorem py_eq_symm {a b : PyConst} (h : py_eq a b = true) :
    py_eq b a = true := by
  rw [py_eq_iff] at h ⊢
  rcases h with h | ⟨x, hx, hy⟩
  · exact Or.inl h.symm
  · exact Or.inr ⟨x, hy, hx⟩

theorem py_eq_trans {a b c : PyConst} (hab : py_eq a b = true)
    (hbc : py_eq b c = true) : py_eq a c = true := by
  rw [py_eq_iff] at hab hbc ⊢
  rcases hab with rfl | ⟨x, hax, hbx⟩
  · exact hbc
  · rcases hbc with rfl | ⟨y, hby, hcy⟩
    · exact Or.inr ⟨x, hax, hbx⟩
    · rw [hbx] at hby
      cases hby
      exact Or.inr ⟨x, hax, hcy⟩

/-- `CodeSpace.declare_const` of compiler.py, i.e. `_list_unique_append`
over the constant pool: append only when no `==`-equal value is pooled
(Python's `v in l` and `l.index(v)` compare with `==`, identity short
cut included, which for these value types coincides with `==`). -/
def declare_const (consts : List PyConst) (v : PyConst) : List PyConst :=
  if consts.any (fun c => py_eq c v) then consts else consts ++ [v]

/-- The operand resolution of the `Pseudop.CONST` branch of
`CodeSpace._gen_code`: `self.consts.index(value)`, the first `==`-equal
slot (`none` models the `ValueError` of a missing value). -/
def const_index (consts : List PyConst) (v : PyConst) : Option Nat :=
  consts.findIdx? (fun c => py_eq c v)

theorem declare_const_of_equal_mem {consts : List PyConst} {v : PyConst}
    (h : consts.any (fun c => py_eq c v) = true) :
    declare_const consts v = consts := by
  simp [declare_const, h]

theorem any_py_eq_declare_const (consts : List PyConst) (v : PyConst) :
    (declare_const consts v).any (fun c => py_eq c v) = true := by
  unfold declare_const
  by_cases h : consts.any (fun c => py_eq c v) = true
  · simp [h]
  · simp only [h, if_false, ite_false]
    simp [List.any_append, py_eq_refl]

theorem py_eq_pred_ext {v w : PyConst} (hvw : py_eq v w = true) :
    (fun c => py_eq c w) = (fun c => py_eq c v) := by
  funext c
  by_cases h : py_eq c v = true
  · rw [h, py_eq_trans h hvw]
  · by_cases h' : py_eq c w = true
    · exact absurd (py_eq_trans h' (py_eq_symm hvw)) h
    · rw [Bool.eq_false_iff.mpr h, Bool.eq_false_iff.mpr h']

/-- C10: the base `CodeSpace` constant pool deduplicates by Python
equality: declaring `w` after an `==`-equal `v` leaves the pool unchanged,
and the `CONST` lowering resolves both `v` and `w` to the same slot — the
slot of the first `==`-equal value — so the later constant loads as the
earlier one. -/
theorem C10_const_pool_equality (consts : List PyConst) (v w : PyConst)
    (hvw : py_eq v w = true) :
    declare_const (declare_const consts v) w = declare_const consts v ∧
    const_index (declare_const consts v) w =
      const_index (declare_const consts v) v := by
  constructor
  · apply declare_const_of_equal_mem
    have hv := any_py_eq_declare_const consts v
    rcases List.any_eq_true.mp hv with ⟨c, hc, hcv⟩
    exact List.any_eq_true.mpr ⟨c, hc, py_eq_trans hcv hvw⟩
  · unfold const_index
    rw [py_eq_pred_ext hvw]

/-- C10 witness: the pool starts as `[None]` (consts[0] is reserved);
declaring the integer `1` and then `True` pools only the `1`, and the
`CONST True` lowering resolves to slot 1, the slot of the integer. -/
theorem C10_const_pool_equality_witness :
    declare_const (declare_const [PyConst.none_v] (.int_v 1)) (.bool_v true) =
      declare_const [PyConst.none_v] (.int_v 1) ∧
    const_index (declare_const [PyConst.none_v] (.int_v 1)) (.bool_v true) =
      const_index (declare_const [PyConst.none_v] (.int_v 1)) (.int_v 1) :=
  C10_const_pool_equality [PyConst.none_v] (.int_v 1) (.bool_v true)
    (by decide)

/-! ## Compilation entry points: filename threading -/

/-- The `filename`/`name` arguments `CodeType` receives from
`CodeSpace.complete` (compiler.py lines 485-486): the space's fields with
their fallback defaults.  Only these code-object fields are relevant to
the ninth claim; the rest of `complete()` is independent of them. -/
structure PyCodeMeta where
  filename : String
  name : String
deriving Repr, DecidableEq

/-- `CodeSpace.complete`, restricted to the filename/name fields. -/
def complete_meta (filename : Option String) (name : Option String) :
    PyCodeMeta :=
  { filename := filename.getD "<sibilant>", name := name.getD "<anon>" }

/-- `compile_from_ast(astree, env, filename=None)`: builds
`SpecialsCodeSpace(filename=filename, positions=positions)` and completes
it.  Only the filename data flow is tracked. -/
def compile_from_ast (filename : Option String) : PyCodeMeta :=
  complete_meta filename none

/-- `compile_from_str(src_str, env, filename=None)`: composes the AST and
calls `compile_from_ast(astree, env)` — without forwarding `filename`. -/
def compile_from_str (src_str : String) (filename : Option String) :
    PyCodeMeta :=
  compile_from_ast none

/-- `compile_from_stream(stream, env, filename=None)`: same shape, same
dropped `filename`. -/
def compile_from_stream (stream : String) (filename : Option String) :
    PyCodeMeta :=
  compile_from_ast none

/-- C9: `compile_from_str` and `compile_from_stream` accept a filename but
do not forward it to `compile_from_ast`, so the completed code object's
filename field is the `"<sibilant>"` fallback, not the given filename —
while `compile_from_ast` itself does thread it through, showing the drop
is a slip in the two wrappers. -/
theorem C9_filename_dropped :
    (compile_from_str "(quote x)" (some "foo.lspy")).filename =
      "<sibilant>" ∧
    (compile_from_str "(quote x)" (some "foo.lspy")).filename ≠
      "foo.lspy" ∧
    (compile_from_stream "(quote x)" (some "foo.lspy")).filename =
      "<sibilant>" ∧
    (compile_from_ast (some "foo.lspy")).filename = "foo.lspy" := by
  refine ⟨rfl, by decide, rfl, rfl⟩

/-! ## Jump-label patching (word-code dialect, version >= 3.6) -/

/-- `t & 0xff` for a Python int (low byte; Python `&` on a negative int
uses two's-complement semantics, i.e. the non-negative remainder). -/
def py_lo_byte (t : Int) : Nat := (t % 256).toNat

/-- `(t >> 8) & 0xff` for a Python int: arithmetic (floor) shift then
mask. -/
def py_hi_byte (t : Int) : Nat := ((Int.fdiv t 256) % 256).toNat

/-- An emitted word-code instruction cell `[opcode, arg]`; opcodes are
identified by their numeric value. -/
abbrev OpCell := Nat × Nat

/-- `coll[i][1] = arg` with Python's IndexError modelled as `none`. -/
def set_cell_arg (coll : List OpCell) (i : Nat) (arg : Nat) :
    Option (List OpCell) :=
  match coll.get? i with
  | some cell => some (coll.set i (cell.1, arg))
  | none => none

/-- Patch the `EXTENDED_ARG`/jump pair starting at `coll_offset` with the
high and low bytes of the resolved target (both 3.6 assemblers share this
shape). -/
def patch_jump_pair (coll : List OpCell) (coll_offset : Nat) (target : Int) :
    Option (List OpCell) :=
  (set_cell_arg coll coll_offset (py_hi_byte target)).bind
    (fun c1 => set_cell_arg c1 (coll_offset + 1) (py_lo_byte target))

/-- `apply_jump_labels` of compiler.py, `(3, 6) <= version_info` branch.
`jabs` entries are `(coll_offset, name)`; `jrel` entries are
`(coll_offset, name, off)` where `off` is the byte offset recorded when
the jump was emitted (the offset of its `EXTENDED_ARG`).  Relative jumps
resolve to `labels[name] - (off + 2)`.  A missing label models the
`KeyError` of `labels[name]`. -/
def apply_jump_labels (coll : List OpCell) (jabs : List (Nat × Nat))
    (jrel : List (Nat × Nat × Nat)) (labels : List (Nat × Int)) :
    Option (List OpCell) :=
  (jabs.foldlM
    (fun c p =>
      (labels.lookup p.2).bind (fun target => patch_jump_pair c p.1 target))
    coll).bind
  (fun c1 => jrel.foldlM
    (fun c p =>
      (labels.lookup p.2.1).bind
        (fun target => patch_jump_pair c p.1 (target - (p.2.2 + 2))))
    c1)

/-- `apply_jump_labels` of compiler/cpython36.py: identical except that
relative jumps resolve to `labels[name] - (off + 4)`. -/
def cpython36_apply_jump_labels (coll : List OpCell)
    (jabs : List (Nat × Nat)) (jrel : List (Nat × Nat × Nat))
    (labels : List (Nat × Int)) : Option (List OpCell) :=
  (jabs.foldlM
    (fun c p =>
      (labels.lookup p.2).bind (fun target => patch_jump_pair c p.1 target))
    coll).bind
  (fun c1 => jrel.foldlM
    (fun c p =>
      (labels.lookup p.2.1).bind
        (fun target => patch_jump_pair c p.1 (target - (p.2.2 + 4))))
    c1)

theorem patch_jump_pair_spec (coll : List OpCell) (i : Nat) (t : Int)
    (e j : OpCell) (he : coll.get? i = some e)
    (hj : coll.get? (i + 1) = some j) :
    patch_jump_pair coll i t =
      some ((coll.set i (e.1, py_hi_byte t)).set (i + 1)
        (j.1, py_lo_byte t)) := by
  have hlen : i < coll.length := List.get?_eq_some.mp he |>.1
  unfold patch_jump_pair set_cell_arg
  rw [he]
  simp only [Option.some_bind]
  have hj' : (coll.set i (e.1, py_hi_byte t)).get? (i + 1) = some j := by
    rw [List.get?_set_ne _ _ (by omega)]
    exact hj
  rw [hj']

/-- C7 (amended): both word-code assemblers write the high 8 bits of the
resolved value into the `EXTENDED_ARG` placeholder's argument byte and
the low 8 bits into the jump instruction's argument byte; absolute jumps
resolve to the label's offset in both, but relative jumps resolve to
`target - (off + 2)` in the generic assembler of compiler.py and to
`target - (off + 4)` in the CPython36 dialect assembler, where `off` is
the byte offset recorded at emission (the `EXTENDED_ARG`'s pc). -/
theorem C7_jump_label_formulas (coll : List OpCell) (i off : Nat)
    (name : Nat) (t : Int) (e j : OpCell) (labels_tbl : List (Nat × Int))
    (hl : labels_tbl.lookup name = some t)
    (he : coll.get? i = some e)
    (hj : coll.get? (i + 1) = some j) :
    apply_jump_labels coll [(i, name)] [] labels_tbl =
      some ((coll.set i (e.1, py_hi_byte t)).set (i + 1)
        (j.1, py_lo_byte t)) ∧
    cpython36_apply_jump_labels coll [(i, name)] [] labels_tbl =
      some ((coll.set i (e.1, py_hi_byte t)).set (i + 1)
        (j.1, py_lo_byte t)) ∧
    apply_jump_labels coll [] [(i, name, off)] labels_tbl =
      some ((coll.set i (e.1, py_hi_byte (t - (off + 2)))).set (i + 1)
        (j.1, py_lo_byte (t - (off + 2)))) ∧
    cpython36_apply_jump_labels coll [] [(i, name, off)] labels_tbl =
      some ((coll.set i (e.1, py_hi_byte (t - (off + 4)))).set (i + 1)
        (j.1, py_lo_byte (t - (off + 4)))) := by
  refine ⟨?_, ?_, ?_, ?_⟩ <;>
    simp [apply_jump_labels, cpython36_apply_jump_labels, hl,
      patch_jump_pair_spec coll i _ e j he hj]

/-- C7 witness: a two-cell `EXTENDED_ARG`+jump pair at index 0, a relative
jump emitted at byte offset 0 targeting a label at byte offset 10:
the generic assembler writes argument byte 8, the CPython36 dialect
writes 6. -/
theorem C7_jump_label_formulas_witness :
    apply_jump_labels [(144, 0), (110, 0)] [(0, 7)] [] [(7, 10)] =
      some [(144, py_hi_byte 10), (110, py_lo_byte 10)] ∧
    cpython36_apply_jump_labels [(144, 0), (110, 0)] [(0, 7)] [] [(7, 10)] =
      some [(144, py_hi_byte 10), (110, py_lo_byte 10)] ∧
    apply_jump_labels [(144, 0), (110, 0)] [] [(0, 7, 0)] [(7, 10)] =
      some [(144, py_hi_byte (10 - (0 + 2))),
            (110, py_lo_byte (10 - (0 + 2)))] ∧
    cpython36_apply_jump_labels [(144, 0), (110, 0)] [] [(0, 7, 0)]
        [(7, 10)] =
      some [(144, py_hi_byte (10 - (0 + 4))),
            (110, py_lo_byte (10 - (0 + 4)))] :=
  C7_jump_label_formulas [(144, 0), (110, 0)] 0 0 7 10 (144, 0) (110, 0)
    [(7, 10)] (by decide) (by decide) (by decide)

/-- C7 counterexample: on the identical input — a relative jump emitted at
offset 0 whose label resolves to offset 10 — the generic assembler of
compiler.py patches the jump's argument byte to 8 (`10 - (0 + 2)`) while
the CPython36 dialect assembler patches it to 6 (`10 - (0 + 4)`), so the
two assemblers do not satisfy the same resolution formula as the claim
states. -/
theorem C7_counterexample :
    apply_jump_labels [(144, 0), (110, 0)] [] [(0, 7, 0)] [(7, 10)] =
      some [(144, 0), (110, 8)] ∧
    cpython36_apply_jump_labels [(144, 0), (110, 0)] [] [(0, 7, 0)]
        [(7, 10)] = some [(144, 0), (110, 6)] ∧
    apply_jump_labels [(144, 0), (110, 0)] [] [(0, 7, 0)] [(7, 10)] ≠
      cpython36_apply_jump_labels [(144, 0), (110, 0)] [] [(0, 7, 0)]
        [(7, 10)] := by
  refine ⟨by decide, by decide, by decide⟩

/-! ## `special_cond` emission and its fall-through path -/

/-- The pseudo-ops `special_cond` emits.  `test_expr i` stands for the ops
of `add_expression(test_i)` and `body_expr i` for `special_begin(body_i)`;
each leaves exactly one value on the stack.  `const_none` is
`pseudop_const(None)`. -/
inductive CondIns where
  | test_expr (i : Nat)
  | body_expr (i : Nat)
  | const_none
  | pop_jump_if_false (l : Nat)
  | jump (l : Nat)
  | label (l : Nat)
deriving Repr, DecidableEq

/-- The clause loop of `special_cond`.  A clause is `(isElse, i)`; the
label counter mirrors `gen_label` (labels are numbered in allocation
order), `done` is the end label, and `pending` is the loop's `label`
variable carrying the fall-through target allocated by the previous
iteration. -/
def cond_emit : List (Bool × Nat) → Nat → Nat → Option Nat → List CondIns
  | [], _, done, pending =>
      -- after the loop: pseudop_const(None); if label: label; label done
      [CondIns.const_none] ++
      (match pending with
       | some l => [CondIns.label l]
       | none => []) ++
      [CondIns.label done]
  | (isElse, i) :: rest, counter, done, pending =>
      (match pending with
       | some l => [CondIns.label l]
       | none => []) ++
      (if isElse then
        [CondIns.body_expr i, CondIns.jump done]
      else
        [CondIns.test_expr i, CondIns.pop_jump_if_false counter,
         CondIns.body_expr i, CondIns.jump done]) ++
      cond_emit rest (counter + 1) done (some counter)

/-- `SpecialsCodeSpace.special_cond`: an initial label (`gen_label` call
1), the `done` label (call 2), then the clause loop with fresh labels
numbered from 3. -/
def special_cond (clauses : List (Bool × Nat)) : List CondIns :=
  CondIns.label 1 :: cond_emit clauses 3 2 none

/-- Runtime values for executing a cond body: `vNone` from CONST None,
`vBool` from a test expression, `vBody` from a clause body. -/
inductive CondVal where
  | vNone
  | vBool (b : Bool)
  | vBody (i : Nat)
deriving Repr, DecidableEq

/-- Python truthiness of the modelled values. -/
def truthy : CondVal → Bool
  | .vNone => false
  | .vBool b => b
  | .vBody _ => true

/-- The instruction index of a label in an emitted buffer. -/
def find_label (prog : List CondIns) (l : Nat) : Option Nat :=
  prog.findIdx? (fun ins => ins = CondIns.label l)

/-- Execute an emitted buffer on a virtual-machine stack; `tests i` gives
the truth value test `i` evaluates to.  Running past the end returns the
stack; exhausted fuel, an unknown label or popping an empty stack return
`none`. -/
def cond_run_fuel (tests : Nat → Bool) (prog : List CondIns) :
    Nat → Nat → List CondVal → Option (List CondVal)
  | 0, _, _ => none
  | fuel + 1, pc, stack =>
    match prog.get? pc with
    | none => some stack
    | some ins =>
      match ins, stack with
      | .test_expr i, _ =>
          cond_run_fuel tests prog fuel (pc + 1) (CondVal.vBool (tests i) :: stack)
      | .body_expr i, _ =>
          cond_run_fuel tests prog fuel (pc + 1) (CondVal.vBody i :: stack)
      | .const_none, _ =>
          cond_run_fuel tests prog fuel (pc + 1) (CondVal.vNone :: stack)
      | .label _, _ =>
          cond_run_fuel tests prog fuel (pc + 1) stack
      | .jump l, _ =>
          (find_label prog l).bind (fun pc' => cond_run_fuel tests prog fuel pc' stack)
      | .pop_jump_if_false _, [] => none
      | .pop_jump_if_false l, top :: stack2 =>
          if truthy top then cond_run_fuel tests prog fuel (pc + 1) stack2
          else (find_label prog l).bind
            (fun pc' => cond_run_fuel tests prog fuel pc' stack2)

/-- Run an emitted buffer from the start with an empty stack and ample
fuel. -/
def cond_run (tests : Nat → Bool) (prog : List CondIns) :
    Option (List CondVal) :=
  cond_run_fuel tests prog (prog.length * (prog.length + 1) + 1) 0 []

/-- C8: on `(cond (t1 b1))` with no else clause, `special_cond` emits
`CONST None` *before* the fall-through label that the failing test jumps
to, so on the control path where the test evaluates false nothing is
pushed: execution ends with an empty stack, not with `None` on it (while
a true test correctly leaves the body's value).  The claim — and the
spec's `push nil/None if no clause matched` — requires `None` on the
stack on that path. -/
theorem C8_cond_fall_through_misses_none :
    special_cond [(false, 0)] =
      [CondIns.label 1, CondIns.test_expr 0, CondIns.pop_jump_if_false 3,
       CondIns.body_expr 0, CondIns.jump 2, CondIns.const_none,
       CondIns.label 3, CondIns.label 2] ∧
    cond_run (fun _ => false) (special_cond [(false, 0)]) = some [] ∧
    cond_run (fun _ => false) (special_cond [(false, 0)]) ≠
      some [CondVal.vNone] ∧
    cond_run (fun _ => true) (special_cond [(false, 0)]) =
      some [CondVal.vBody 0] := by
  refine ⟨rfl, by decide, by decide, by decide⟩

/-! ## Reader event-macro tables and `temporary_event_macro` (parse.py) -/

/-- The two reader tables the event-macro operations manipulate:
`reader_macros` (a dict from char to handler, insertion-ordered; handlers
are identified by number since only table state matters here) and the
`terminating` character list. -/
structure ReaderTables where
  reader_handlers : List (Char × Nat)
  terminating : List Char
deriving Repr, DecidableEq

/-- Python dict assignment `d[c] = h`: overwrite in place, else append in
insertion order. -/
def dict_set (d : List (Char × Nat)) (c : Char) (h : Nat) :
    List (Char × Nat) :=
  if (d.lookup c).isSome then
    d.map (fun p => if p.1 = c then (c, h) else p)
  else d ++ [(c, h)]

/-- Python `del d[c]`. -/
def dict_del (d : List (Char × Nat)) (c : Char) : List (Char × Nat) :=
  d.filter (fun p => p.1 ≠ c)

/-- `Reader.set_event_macro` for a single-character `char` argument (every
call site passes one character): store the handler and, when
`terminating`, append the character to the terminating list. -/
def set_event_handler (r : ReaderTables) (c : Char) (h : Nat)
    (terminating : Bool) : ReaderTables :=
  { reader_handlers := dict_set r.reader_handlers c h,
    terminating := if terminating then r.terminating ++ [c]
                   else r.terminating }

/-- `Reader.get_event_macro`: the handler together with the character's
terminating status, or `none` on `KeyError`. -/
def get_event_handler (r : ReaderTables) (c : Char) : Option (Nat × Bool) :=
  (r.reader_handlers.lookup c).map (fun h => (h, c ∈ r.terminating))

/-- `Reader.clear_event_macro`: when the character is bound, remove it
from `terminating` (Python `list.remove` — `none` models its
`ValueError` when the character is not terminating) and delete the dict
entry; when unbound, do nothing. -/
def clear_event_handler (r : ReaderTables) (c : Char) :
    Option ReaderTables :=
  if (r.reader_handlers.lookup c).isSome then
    if c ∈ r.terminating then
      some { reader_handlers := dict_del r.reader_handlers c,
             terminating := r.terminating.erase c }
    else none
  else some r

/-- `Reader.temporary_event_macro`: save the old binding, install the
temporary handler, run the body, and restore only after a normal return —
the generator has no `try/finally` around its `yield`, so when the body
raises, the lines after `yield` never execute and the reader keeps the
temporary binding.  The body threads the (mutable) reader state through
both outcomes; the outer `Except.error none` models the `ValueError` the
restore path itself can raise. -/
def temporary_event_handler (r : ReaderTables) (c : Char) (h : Nat)
    (terminating : Bool)
    (body : ReaderTables → Except Nat Unit × ReaderTables) :
    Except (Option Nat) Unit × ReaderTables :=
  let old := get_event_handler r c
  let r1 := set_event_handler r c h terminating
  match body r1 with
  | (.error e, r2) => (.error (some e), r2)
  | (.ok a, r2) =>
      match old with
      | none =>
          match clear_event_handler r2 c with
          | some r3 => (.ok a, r3)
          | none => (.error none, r2)
      | some (h', t') => (.ok a, set_event_handler r2 c h' t')

/-- C4: `temporary_event_macro` does *not* restore the previous binding
when the enclosed sub-read raises.  With no prior binding for `','`, a
body that raises (as `_read_quasiquote`'s sub-read can) leaves the
temporary unquote handler installed and `','` terminating — the state is
not restored to the original absence of a binding — whereas the same
temporary scope around a successful body does restore the original
tables exactly. -/
theorem C4_no_restore_on_error :
    (temporary_event_handler ⟨[], ['\n', '\r', '\t', ' ']⟩ ',' 99 true
        (fun r => (Except.error 0, r))).1 = Except.error (some 0) ∧
    get_event_handler
      (temporary_event_handler ⟨[], ['\n', '\r', '\t', ' ']⟩ ',' 99 true
        (fun r => (Except.error 0, r))).2 ',' = some (99, true) ∧
    get_event_handler ⟨[], ['\n', '\r', '\t', ' ']⟩ ',' = none ∧
    temporary_event_handler ⟨[], ['\n', '\r', '\t', ' ']⟩ ',' 99 true
        (fun r => (Except.ok (), r)) =
      (Except.ok (), ⟨[], ['\n', '\r', '\t', ' ']⟩) := by
  refine ⟨rfl, by decide, rfl, by rfl⟩

/-! ## Atom patterns: Python regexes as Brzozowski-derivative matchers -/

/-- Regular expressions over characters, enough for the eight atom
patterns of parse.py. -/
inductive Regex where
  | emp
  | eps
  | cls (p : Char → Bool)
  | cat (r1 r2 : Regex)
  | alt (r1 r2 : Regex)
  | star (r : Regex)

/-- Does the regex accept the empty string? -/
def nullable : Regex → Bool
  | .emp => false
  | .eps => true
  | .cls _ => false
  | .cat a b => nullable a && nullable b
  | .alt a b => nullable a || nullable b
  | .star _ => true

/-- Brzozowski derivative by one character. -/
def deriv : Regex → Char → Regex
  | .emp, _ => .emp
  | .eps, _ => .emp
  | .cls p, c => if p c then .eps else .emp
  | .cat a b, c =>
      if nullable a then .alt (.cat (deriv a c) b) (deriv b c)
      else .cat (deriv a c) b
  | .alt a b, c => .alt (deriv a c) (deriv b c)
  | .star r, c => .cat (deriv r c) (.star r)

/-- Python `re.compile(pat).match(s)` truthiness: does some prefix of `s`
(anchored at the start) match the regex? -/
def re_match : Regex → List Char → Bool
  | r, [] => nullable r
  | r, c :: cs => nullable r || re_match (deriv r c) cs

/-- Does the regex accept exactly the whole string? -/
def re_fullmatch : Regex → List Char → Bool
  | r, [] => nullable r
  | r, c :: cs => re_fullmatch (deriv r c) cs

/-- `r?` -/
def opt (r : Regex) : Regex := .alt r .eps

/-- `r+` -/
def plus (r : Regex) : Regex := .cat r (.star r)

/-- a literal character -/
def chr (c : Char) : Regex := .cls (fun x => x = c)

/-- `\d` (ASCII digits, the only ones atoms produce) -/
def digit : Regex := .cls Char.isDigit

/-- Python `.` (any character but a newline) -/
def dot_any : Regex := .cls (fun c => c ≠ '\n')

/-- `-?\d+` (parse.py `_integer_re`) -/
def integer_re : Regex := .cat (opt (chr '-')) (plus digit)

/-- `0b[01]+` (`_bin_re`) -/
def bin_re : Regex :=
  .cat (chr '0') (.cat (chr 'b') (plus (.cls (fun c => c = '0' ∨ c = '1'))))

/-- `0o[0-7]+` (`_oct_re`) -/
def oct_re : Regex :=
  .cat (chr '0') (.cat (chr 'o')
    (plus (.cls (fun c => '0' ≤ c ∧ c ≤ '7'))))

/-- `[\da-f]` -/
def hex_digit : Regex :=
  .cls (fun c => c.isDigit ∨ ('a' ≤ c ∧ c ≤ 'f'))

/-- `0x[\da-f]+` (`_hex_re`) -/
def hex_re : Regex := .cat (chr '0') (.cat (chr 'x') (plus hex_digit))

/-- `e-?\d+` -/
def exponent_re : Regex :=
  .cat (chr 'e') (.cat (opt (chr '-')) (plus digit))

/-- `-?((\d*\.\d+|\d+\.\d*)(e-?\d+)?|(\d+e-?\d+))` (`_float_re`) -/
def float_re : Regex :=
  .cat (opt (chr '-'))
    (.alt
      (.cat
        (.alt (.cat (.star digit) (.cat (chr '.') (plus digit)))
              (.cat (plus digit) (.cat (chr '.') (.star digit))))
        (opt exponent_re))
      (.cat (plus digit) exponent_re))

/-- `-?\d+/\d+` (`_fraction_re`) -/
def fraction_re : Regex :=
  .cat (opt (chr '-'))
    (.cat (plus digit) (.cat (chr '/') (plus digit)))

/-- `-?\d*\.?\d+\+\d*\.?\d*[ij]` (`_complex_re`) -/
def complex_re : Regex :=
  .cat (opt (chr '-'))
    (.cat (.star digit)
      (.cat (opt (chr '.'))
        (.cat (plus digit)
          (.cat (chr '+')
            (.cat (.star digit)
              (.cat (opt (chr '.'))
                (.cat (.star digit)
                  (.cls (fun c => c = 'i' ∨ c = 'j')))))))))

/-- The body of `^(:.+|.+:)$` (`_keyword_re`); its anchors make the
Python `.match` call a whole-string match, embedded via
`re_fullmatch`. -/
def keyword_re : Regex :=
  .alt (.cat (chr ':') (plus dot_any))
       (.cat (plus dot_any) (chr ':'))

/-! ## Atom conversion functions and their Python exceptions -/

/-- The Python exceptions an atom conversion can raise. -/
inductive PyExc where
  | value_error (msg : String)
  | zero_division_error (msg : String)
deriving Repr, DecidableEq

/-- Values produced by the default atom conversions.  Floats and complexes
keep their source text — their numeric semantics plays no role in any
checked property — and `_as_fraction`'s result
`cons(symbol("fraction"), numerator, denominator, nil)` is embedded as
the normalized numerator/denominator pair. -/
inductive SibValue where
  | int_v (n : Int)
  | float_v (s : String)
  | complex_v (s : String)
  | fraction_call (num den : Int)
  | keyword_v (s : String)
  | symbol_v (s : String)
deriving Repr, DecidableEq

/-- Decimal value of a digit run. -/
def digits_val (l : List Char) : Nat :=
  l.foldl (fun acc c => acc * 10 + (c.toNat - '0'.toNat)) 0

/-- Python `int(s)` (base 10): optional sign then at least one digit
(PEP-515 underscore grouping and surrounding whitespace are not modelled;
no atom contains either). -/
def py_int (s : List Char) : Except PyExc Int :=
  let core : List Char → Option Int := fun t =>
    if t ≠ [] ∧ t.all Char.isDigit then some (digits_val t) else none
  let parsed : Option Int :=
    match s with
    | '-' :: rest => (core rest).map (fun n => -n)
    | '+' :: rest => core rest
    | _ => core s
  match parsed with
  | some n => .ok n
  | none =>
      .error (.value_error
        ("invalid literal for int() with base 10: '" ++ String.mk s ++ "'"))

/-- The value of one digit in the given base, if valid. -/
def base_digit_val (base : Nat) (c : Char) : Option Nat :=
  let v :=
    if c.isDigit then some (c.toNat - '0'.toNat)
    else if 'a' ≤ c ∧ c ≤ 'z' then some (c.toNat - 'a'.toNat + 10)
    else if 'A' ≤ c ∧ c ≤ 'Z' then some (c.toNat - 'A'.toNat + 10)
    else none
  v.bind (fun n => if n < base then some n else none)

/-- Python `int(s, base)` for bases 2/8/16 (`partial(int, base=k)` of
`_as_bin`/`_as_oct`/`_as_hex`): optional sign, optional matching
`0b`/`0o`/`0x` prefix, then at least one digit of the base. -/
def py_int_base (base : Nat) (pfx : Char) (s : List Char) :
    Except PyExc Int :=
  let digits_of : List Char → Option Nat := fun t =>
    if t = [] then none
    else t.foldl (fun acc c =>
      acc.bind (fun a => (base_digit_val base c).map (fun d => a * base + d)))
      (some 0)
  let unsigned : List Char → Option Nat := fun t =>
    match t with
    | '0' :: p :: rest =>
        if p = pfx then digits_of rest else digits_of t
    | _ => digits_of t
  let parsed : Option Int :=
    match s with
    | '-' :: rest => (unsigned rest).map (fun n => -(n : Int))
    | '+' :: rest => (unsigned rest).map (fun n => (n : Int))
    | _ => (unsigned s).map (fun n => (n : Int))
  match parsed with
  | some n => .ok n
  | none =>
      .error (.value_error
        ("invalid literal for int() with base " ++ toString base ++ ": '" ++
          String.mk s ++ "'"))

/-- `[eE][+-]?\d+` -/
def py_exponent_re : Regex :=
  .cat (.cls (fun c => c = 'e' ∨ c = 'E'))
    (.cat (opt (.cls (fun c => c = '+' ∨ c = '-'))) (plus digit))

/-- `(\d+(\.\d*)?|\.\d+)([eE][+-]?\d+)?` — the body of a Python float
literal. -/
def py_float_body : Regex :=
  .cat
    (.alt (.cat (plus digit) (opt (.cat (chr '.') (.star digit))))
          (.cat (chr '.') (plus digit)))
    (opt py_exponent_re)

/-- The strings Python `float(s)` accepts (without surrounding
whitespace): signed float literal or the lowercase `inf`/`infinity`/`nan`
words (other casings, unreachable from the reader's atoms, are not
modelled). -/
def py_float_lit : Regex :=
  .cat (opt (.cls (fun c => c = '+' ∨ c = '-')))
    (.alt py_float_body
      (.alt
        (.cat (chr 'i') (.cat (chr 'n')
          (.cat (chr 'f')
            (opt (.cat (chr 'i') (.cat (chr 'n') (.cat (chr 'i')
              (.cat (chr 't') (chr 'y')))))))))
        (.cat (chr 'n') (.cat (chr 'a') (chr 'n')))))

/-- `_as_float = float`: keep the text when Python would accept it, raise
`ValueError` otherwise. -/
def as_float (s : List Char) : Except PyExc SibValue :=
  if re_fullmatch py_float_lit s then .ok (.float_v (String.mk s))
  else .error (.value_error
    ("could not convert string to float: '" ++ String.mk s ++ "'"))

/-- `j` or `J` -/
def py_jchr : Regex := .cls (fun c => c = 'j' ∨ c = 'J')

/-- The strings Python `complex(s)` accepts (no whitespace, no
parentheses): `[+-]?F`, `[+-]?F?j`, or `[+-]?F[+-]F?j` with `F` a float
body. -/
def py_complex_lit : Regex :=
  .cat (opt (.cls (fun c => c = '+' ∨ c = '-')))
    (.alt py_float_body
      (.alt (.cat (opt py_float_body) py_jchr)
        (.cat py_float_body
          (.cat (.cls (fun c => c = '+' ∨ c = '-'))
            (.cat (opt py_float_body) py_jchr)))))

/-- `_as_complex`: replace a trailing `i` with `j`, then `complex(...)`;
keep the (original) text when Python would accept the translated string,
raise `ValueError` otherwise. -/
def as_complex (s : List Char) : Except PyExc SibValue :=
  let t := if s.getLast? = some 'i' then s.dropLast ++ ['j'] else s
  if re_fullmatch py_complex_lit t then .ok (.complex_v (String.mk s))
  else .error (.value_error "complex() arg is a malformed string")

/-- `_as_fraction`: `fraction(s)` then
`cons(symbol("fraction"), s.numerator, s.denominator, nil)`.
`Fraction(s)` on the `p/q` strings this pattern selects: optional sign,
digits, `/`, digits — `ValueError` on anything else, `ZeroDivisionError`
on a zero denominator, and the stored numerator/denominator are the
normalized ones.  (The slash-free decimal strings `Fraction` also
accepts never reach this conversion: its pattern requires a `/`.) -/
def as_fraction (s : List Char) : Except PyExc SibValue :=
  let split : List Char → Option (Nat × Nat) := fun t =>
    match t.splitOn '/' with
    | [num, den] =>
        if num ≠ [] ∧ num.all Char.isDigit ∧ den ≠ [] ∧ den.all Char.isDigit
        then some (digits_val num, digits_val den)
        else none
    | _ => none
  let parsed : Option (Bool × Nat × Nat) :=
    match s with
    | '-' :: rest => (split rest).map (fun pq => (true, pq))
    | '+' :: rest => (split rest).map (fun pq => (false, pq))
    | _ => (split s).map (fun pq => (false, pq))
  match parsed with
  | none =>
      .error (.value_error
        ("Invalid literal for Fraction: '" ++ String.mk s ++ "'"))
  | some (neg, p, q) =>
      if q = 0 then
        .error (.zero_division_error
          ("Fraction(" ++ toString (if neg then -(p : Int) else (p : Int)) ++
            ", 0)"))
      else
        let g := Nat.gcd p q
        let num : Int := (p / g : Nat)
        .ok (.fraction_call (if neg then -num else num) ((q / g : Nat) : Int))

/-! ## The atom-pattern table and `_read_atom` -/

/-- One `(namesym, match-predicate, conversion)` entry of
`Reader.atom_patterns`. -/
structure AtomPattern where
  namesym : String
  match_fn : List Char → Bool
  conv : List Char → Except PyExc SibValue

/-- The in-place update branch of `Reader.set_atom_pattern`: replace the
first entry with the same name, or report that none exists. -/
def set_atom_pattern_replace : List AtomPattern → AtomPattern →
    Option (List AtomPattern)
  | [], _ => none
  | q :: qs, p =>
      if q.namesym = p.namesym then some (p :: qs)
      else (set_atom_pattern_replace qs p).map (fun r => q :: r)

/-- `Reader.set_atom_pattern`: update the entry with the same name in
place, else `insert(0, ...)` — newest first. -/
def set_atom_pattern (patts : List AtomPattern) (p : AtomPattern) :
    List AtomPattern :=
  (set_atom_pattern_replace patts p).getD (p :: patts)

/-- `keyword` pattern: its regex `^(:.+|.+:)$` is anchored on both sides,
so its `.match` accepts exactly the full atom. -/
def keyword_pattern : AtomPattern :=
  ⟨"keyword", fun a => re_fullmatch keyword_re a,
   fun a => .ok (.keyword_v (String.mk a))⟩

/-- `int` pattern: `-?\d+` via `.match` (prefix), converted by `int`. -/
def int_pattern : AtomPattern :=
  ⟨"int", fun a => re_match integer_re a,
   fun a => (py_int a).map SibValue.int_v⟩

/-- `hex` pattern. -/
def hex_pattern : AtomPattern :=
  ⟨"hex", fun a => re_match hex_re a,
   fun a => (py_int_base 16 'x' a).map SibValue.int_v⟩

/-- `oct` pattern. -/
def oct_pattern : AtomPattern :=
  ⟨"oct", fun a => re_match oct_re a,
   fun a => (py_int_base 8 'o' a).map SibValue.int_v⟩

/-- `binary` pattern. -/
def bin_pattern : AtomPattern :=
  ⟨"binary", fun a => re_match bin_re a,
   fun a => (py_int_base 2 'b' a).map SibValue.int_v⟩

/-- `float` pattern. -/
def float_pattern : AtomPattern :=
  ⟨"float", fun a => re_match float_re a, as_float⟩

/-- `complex` pattern. -/
def complex_pattern : AtomPattern :=
  ⟨"complex", fun a => re_match complex_re a, as_complex⟩

/-- `fraction` pattern. -/
def fraction_pattern : AtomPattern :=
  ⟨"fraction", fun a => re_match fraction_re a, as_fraction⟩

/-- `Reader._add_default_atoms`: register keyword, int, hex, oct, binary,
float, complex, fraction in that order; each lands at the front. -/
def default_atom_patterns : List AtomPattern :=
  [keyword_pattern, int_pattern, hex_pattern, oct_pattern, bin_pattern,
   float_pattern, complex_pattern, fraction_pattern].foldl
    set_atom_pattern []

/-- The pattern loop of `Reader._read_atom`: the first pattern (in table
order) whose match-predicate accepts the atom. -/
def select_atom_conversion : List AtomPattern → List Char →
    Option AtomPattern
  | [], _ => none
  | p :: ps, atom =>
      if p.match_fn atom then some p else select_atom_conversion ps atom

/-- The table the claim's words describe: the same patterns but with each
match-predicate requiring the *full* atom ("accepts the full atom, not
merely a prefix of it").  Kept only to compare against the source's
table. -/
def default_atom_patterns_fullmatch : List AtomPattern :=
  [⟨"fraction", fun a => re_fullmatch fraction_re a, as_fraction⟩,
   ⟨"complex", fun a => re_fullmatch complex_re a, as_complex⟩,
   ⟨"float", fun a => re_fullmatch float_re a, as_float⟩,
   ⟨"binary", fun a => re_fullmatch bin_re a,
    fun a => (py_int_base 2 'b' a).map SibValue.int_v⟩,
   ⟨"oct", fun a => re_fullmatch oct_re a,
    fun a => (py_int_base 8 'o' a).map SibValue.int_v⟩,
   ⟨"hex", fun a => re_fullmatch hex_re a,
    fun a => (py_int_base 16 'x' a).map SibValue.int_v⟩,
   ⟨"int", fun a => re_fullmatch integer_re a,
    fun a => (py_int a).map SibValue.int_v⟩,
   keyword_pattern]

theorem default_atom_patterns_eq :
    default_atom_patterns =
      [fraction_pattern, complex_pattern, float_pattern, bin_pattern,
       oct_pattern, hex_pattern, int_pattern, keyword_pattern] := by
  rfl

/-- The reader events the checked properties mention. -/
inductive REvent where
  | value
  | dot
  | eof
deriving Repr, DecidableEq

/-- `Reader._read_atom` after the atom text has been assembled: `"."`
yields the DOT event; otherwise the first accepting pattern's conversion
is applied, and with no accepting pattern the atom becomes a symbol.  A
raised conversion exception propagates as the `Except.error`. -/
def read_atom_fn (atom : List Char) :
    Except PyExc (REvent × Option SibValue) :=
  if atom = ['.'] then .ok (.dot, none)
  else
    match select_atom_conversion default_atom_patterns atom with
    | some p => (p.conv atom).map (fun v => (.value, some v))
    | none => .ok (.value, some (.symbol_v (String.mk atom)))

/-- C5 (amended): the default atom patterns are tried in the order
fraction, complex, float, binary, oct, hex, int, keyword — produced by
the `insert(0, ...)` registrations of `_add_default_atoms` — and a
pattern's conversion is applied if and only if its regex matches a
*prefix* of the atom anchored at its start (Python `re.match`), not
necessarily the full atom; the keyword regex is itself `^...$`-anchored,
so it alone requires the full atom; if no pattern accepts, the atom is
converted with `symbol`. -/
theorem C5_atom_pattern_order
    (atom : List Char) (hdot : atom ≠ ['.']) :
    (default_atom_patterns.map (fun p => p.namesym) =
      ["fraction", "complex", "float", "binary", "oct", "hex", "int",
       "keyword"]) ∧
    (select_atom_conversion default_atom_patterns atom =
      if re_match fraction_re atom then some fraction_pattern
      else if re_match complex_re atom then some complex_pattern
      else if re_match float_re atom then some float_pattern
      else if re_match bin_re atom then some bin_pattern
      else if re_match oct_re atom then some oct_pattern
      else if re_match hex_re atom then some hex_pattern
      else if re_match integer_re atom then some int_pattern
      else if re_fullmatch keyword_re atom then some keyword_pattern
      else none) ∧
    (select_atom_conversion default_atom_patterns atom = none →
      read_atom_fn atom = .ok (.value, some (.symbol_v (String.mk atom)))) := by
  refine ⟨by rw [default_atom_patterns_eq]; rfl, ?_, ?_⟩
  · rw [default_atom_patterns_eq]
    simp only [select_atom_conversion, fraction_pattern, complex_pattern,
      float_pattern, bin_pattern, oct_pattern, hex_pattern, int_pattern,
      keyword_pattern]
  · intro hnone
    unfold read_atom_fn
    rw [if_neg hdot, hnone]

/-- C5 witness: the atom `"foo"` is accepted by no pattern and becomes a
symbol, and the table order is as stated. -/
theorem C5_atom_pattern_order_witness :
    (default_atom_patterns.map (fun p => p.namesym) =
      ["fraction", "complex", "float", "binary", "oct", "hex", "int",
       "keyword"]) ∧
    (select_atom_conversion default_atom_patterns ("foo".toList) =
      if re_match fraction_re ("foo".toList) then some fraction_pattern
      else if re_match complex_re ("foo".toList) then some complex_pattern
      else if re_match float_re ("foo".toList) then some float_pattern
      else if re_match bin_re ("foo".toList) then some bin_pattern
      else if re_match oct_re ("foo".toList) then some oct_pattern
      else if re_match hex_re ("foo".toList) then some hex_pattern
      else if re_match integer_re ("foo".toList) then some int_pattern
      else if re_fullmatch keyword_re ("foo".toList) then some keyword_pattern
      else none) ∧
    (select_atom_conversion default_atom_patterns ("foo".toList) = none →
      read_atom_fn ("foo".toList) =
        .ok (.value, some (.symbol_v (String.mk ("foo".toList))))) :=
  C5_atom_pattern_order ("foo".toList) (by decide)

/-- C5 counterexample: the atom `"1/2/3"` is accepted in full by no
pattern — under the claim's full-match reading it would be a symbol (the
fullmatch table selects nothing) — yet the source table selects the
fraction pattern, because `re.match` accepts its prefix `"1/2"`; its
conversion is then applied (and raises). -/
theorem C5_counterexample :
    (select_atom_conversion default_atom_patterns
      ("1/2/3".toList)).map (fun p => p.namesym) = some "fraction" ∧
    (select_atom_conversion default_atom_patterns_fullmatch
      ("1/2/3".toList)).map (fun p => p.namesym) = none ∧
    re_fullmatch fraction_re ("1/2/3".toList) = false ∧
    re_match fraction_re ("1/2/3".toList) = true := by
  refine ⟨by rfl, by rfl, by decide, by decide⟩

/-! ## Source stream and the `_read` conversion boundary -/

/-- `SourceStream`: remaining characters plus the (line, column) of the
next character (lines from 1, columns from 0) and the filename used for
error construction. -/
structure SourceStream where
  chars : List Char
  lin : Nat
  col : Nat
  filename : String
deriving Repr, DecidableEq

/-- Position bookkeeping of `SourceStream.read`: LF advances the line and
resets the column, CR alone resets the column, anything else advances the
column. -/
def advance_pos (lin col : Nat) (c : Char) : Nat × Nat :=
  if c = '\n' then (lin + 1, 0)
  else if c = '\r' then (lin, 0)
  else (lin, col + 1)

/-- `SourceStream.read(1)`; `none` at end of stream (Python returns the
empty string). -/
def stream_read1 (s : SourceStream) : Option (Char × SourceStream) :=
  match s.chars with
  | [] => none
  | c :: rest =>
      let lc := advance_pos s.lin s.col c
      some (c, { s with chars := rest, lin := lc.1, col := lc.2 })

/-- The characters `read_until(testf)` consumes: the longest prefix whose
characters fail `testf`. -/
def take_failing (testf : Char → Bool) : List Char → List Char
  | [] => []
  | c :: rest => if testf c then [] else c :: take_failing testf rest

/-- Consume a known prefix, updating positions as `read` does. -/
def stream_consume (s : SourceStream) (got : List Char) : SourceStream :=
  { s with chars := s.chars.drop got.length,
           lin := (got.foldl (fun lc c => advance_pos lc.1 lc.2 c)
             (s.lin, s.col)).1,
           col := (got.foldl (fun lc c => advance_pos lc.1 lc.2 c)
             (s.lin, s.col)).2 }

/-- `SourceStream.read_until(testf)`. -/
def stream_read_until (s : SourceStream) (testf : Char → Bool) :
    List Char × SourceStream :=
  let got := take_failing testf s.chars
  (got, stream_consume s got)

/-- `SourceStream.skip_whitespace` = `read_until(lambda c: not
c.isspace())`. -/
def skip_whitespace (s : SourceStream) : SourceStream :=
  (stream_read_until s (fun c => !c.isWhitespace)).2

/-- The characters carrying default event macros (`_add_default_macros`):
their handlers are the structural readers (pairs, strings, quotes,
comments), outside the scope of the atom-conversion properties. -/
def default_handler_chars : List Char := ['(', ')', '"', '\'', '`', ';']

/-- The default reader's terminating characters after
`_add_default_macros`: the initial whitespace four plus the six macro
characters, each registered terminating. -/
def default_terminating : List Char :=
  ['\n', '\r', '\t', ' '] ++ default_handler_chars

/-- What one `Reader._read` step on the default reader produces. -/
inductive ReadOutcome where
  | ok_event (ev : REvent) (lin col : Nat) (v : Option SibValue)
  | syntax_error (msg : String) (lin col : Nat) (filename : String)
  | handler_dispatch (c : Char) (lin col : Nat)
  | py_error (e : PyExc)
deriving Repr, DecidableEq

/-- One `Reader._read` step of the default reader on the given stream:
skip whitespace, record the position, read one character; EOF yields the
EOF event; a character with an event macro dispatches to its handler
(`handler_dispatch` stands for the six structural handlers); any other
character runs `_read_atom` on the character plus the following
non-terminating run, and a `ValueError` raised by the conversion is
re-raised as `stream.error(msg, position)` — a `ReaderSyntaxError` at the
recorded position — while any other exception propagates unconverted. -/
def reader_read (s : SourceStream) : ReadOutcome :=
  let s1 := skip_whitespace s
  match stream_read1 s1 with
  | none => .ok_event .eof s1.lin s1.col none
  | some (c, s2) =>
      if c ∈ default_handler_chars then .handler_dispatch c s1.lin s1.col
      else
        let atom := c :: (stream_read_until s2
          (fun ch => ch ∈ default_terminating)).1
        match read_atom_fn atom with
        | .ok (ev, v) => .ok_event ev s1.lin s1.col v
        | .error (.value_error msg) => .syntax_error msg s1.lin s1.col s1.filename
        | .error e => .py_error e

/-- C6 (amended): when the atom starting at the recorded position has a
conversion that raises a `ValueError`, the reader re-raises it as a
`ReaderSyntaxError` carrying the position at which the atom started (and
the stream's filename); but a conversion raising any *other* exception
type — as `_as_fraction` does for a zero denominator, raising
`ZeroDivisionError` — escapes the reader unconverted, since `_read`
catches only `ValueError`. -/
theorem C6_conversion_errors (s : SourceStream) (c : Char)
    (s2 : SourceStream) (msg : String)
    (hread : stream_read1 (skip_whitespace s) = some (c, s2))
    (hc : c ∉ default_handler_chars)
    (hconv : read_atom_fn
        (c :: (stream_read_until s2 (fun ch => ch ∈ default_terminating)).1) =
      .error (.value_error msg)) :
    reader_read s = .syntax_error msg (skip_whitespace s).lin
      (skip_whitespace s).col (skip_whitespace s).filename := by
  unfold reader_read
  simp only [hread]
  rw [if_neg hc]
  simp only [hconv]

/-- C6 witness: the stream `"  0b2"` — after skipping whitespace the atom
`"0b2"` starts at column 2; only the int pattern prefix-matches (via
`"0"`), `int("0b2")` raises `ValueError`, and the reader reports a syntax
error at line 1, column 2. -/
theorem C6_conversion_errors_witness :
    reader_read ⟨"  0b2".toList, 1, 0, "f.lspy"⟩ =
      .syntax_error "invalid literal for int() with base 10: '0b2'"
        (skip_whitespace ⟨"  0b2".toList, 1, 0, "f.lspy"⟩).lin
        (skip_whitespace ⟨"  0b2".toList, 1, 0, "f.lspy"⟩).col
        (skip_whitespace ⟨"  0b2".toList, 1, 0, "f.lspy"⟩).filename :=
  C6_conversion_errors ⟨"  0b2".toList, 1, 0, "f.lspy"⟩ '0'
    ⟨"b2".toList, 1, 3, "f.lspy"⟩
    "invalid literal for int() with base 10: '0b2'"
    (by rfl) (by decide) (by rfl)

/-- C6 counterexample: reading the fraction atom `"1/0"` — whose
conversion `_as_fraction` raises `ZeroDivisionError("Fraction(1, 0)")` —
does not produce a `ReaderSyntaxError` at the atom's position: the
`ZeroDivisionError` is not a `ValueError`, escapes `_read`'s handler, and
leaves the reader as-is, refuting the claim that no other exception type
escapes the reader from a conversion failure. -/
theorem C6_counterexample :
    reader_read ⟨"1/0".toList, 1, 0, "f.lspy"⟩ =
      .py_error (.zero_division_error "Fraction(1, 0)") ∧
    (∀ msg lin col fname,
      reader_read ⟨"1/0".toList, 1, 0, "f.lspy"⟩ ≠
        .syntax_error msg lin col fname) := by
  constructor
  · rfl
  · intro msg lin col fname h
    rw [show reader_read ⟨"1/0".toList, 1, 0, "f.lspy"⟩ =
      .py_error (.zero_division_error "Fraction(1, 0)") from rfl] at h
    exact ReadOutcome.noConfusion h

end Sibilant
